import Mathlib

/-!
Verification of the sfizz wavetable mip-mapping core
(src/sources/sfizz/Wavetables.h and Wavetables.cpp).

The C++ code is shallowly embedded: floating-point arithmetic (float and
double) is modelled by exact real arithmetic over the reals, machine
integers by Nat and Int, and the kiss FFT primitives by their defining
discrete-Fourier sums.  Storage buffers are modelled as functions from
natural-number flat indices to reals, matching the single flat vector the
source slices into padded rows.
-/

open Real

/-- clamp helper from Wavetables.cpp: max(lo, min(hi, x)). -/
def clamp {α : Type} [LinearOrder α] (x lo hi : α) : α := max lo (min hi x)

/-- MipmapRange value type from Wavetables.h. -/
structure MipmapRange where
  minFrequency : ℝ
  maxFrequency : ℝ

namespace MipmapRange

/-- Number of tables in the mipmap (MipmapRange::N). -/
def N : ℕ := 24

/-- Start frequency of the first table (MipmapRange::F1). -/
noncomputable def F1 : ℝ := 20.0

/-- Start frequency of the last table (MipmapRange::FN). -/
noncomputable def FN : ℝ := 12000.0

/-- MipmapRange::K = 1.0 / F1. -/
noncomputable def K : ℝ := 1.0 / F1

/-- MipmapRange::LogB = log(FN / F1) / (N - 1), with N - 1 = 23. -/
noncomputable def LogB : ℝ := Real.log (FN / F1) / 23

/-- MipmapRange::getExactIndexForFrequency:
t = (f < F1) ? 0 : log(K * f) / LogB, clamped to [0, N - 1]. -/
noncomputable def getExactIndexForFrequency (f : ℝ) : ℝ :=
  clamp (if f < F1 then 0 else Real.log (K * f) / LogB) 0 23

/-- MipmapRange::FrequencyToIndex, a 1024-entry table: entry i < 1023 holds
getExactIndexForFrequency(F1 + (i / 1023) * (FN - F1)); the last entry is
set to N - 1 = 23 exactly. -/
noncomputable def FrequencyToIndex (i : ℕ) : ℝ :=
  if i < 1023 then
    getExactIndexForFrequency (F1 + ((i : ℝ) * (1 / 1023)) * (FN - F1))
  else 23

/-- MipmapRange::getIndexForFrequency: linear interpolation into
FrequencyToIndex.  The C++ static_cast to int truncates toward zero, which
on the clamped nonnegative pos equals the floor. -/
noncomputable def getIndexForFrequency (f : ℝ) : ℝ :=
  let pos : ℝ := clamp ((f - F1) * (1023 / (FN - F1))) 0 1023
  let index1 : ℤ := ⌊pos⌋
  let index2 : ℤ := min (index1 + 1) 1023
  let frac : ℝ := pos - (index1 : ℝ)
  (1 - frac) * FrequencyToIndex index1.toNat + frac * FrequencyToIndex index2.toNat

/-- MipmapRange::IndexToStartFrequency, an (N+1)-entry table: entry t < N
holds exp(t * LogB) / K; the final entry (index N) is 22050. -/
noncomputable def IndexToStartFrequency (t : ℕ) : ℝ :=
  if t < N then Real.exp ((t : ℝ) * LogB) / K else 22050.0

/-- MipmapRange::getRangeForIndex: clamp the index to [0, N - 1] and read
two adjacent boundaries. -/
noncomputable def getRangeForIndex (o : ℤ) : MipmapRange :=
  let o2 : ℤ := clamp o 0 23
  { minFrequency := IndexToStartFrequency o2.toNat
    maxFrequency := IndexToStartFrequency (o2.toNat + 1) }

/-- MipmapRange::getRangeForFrequency: the int cast of the nonnegative
interpolated index is its floor. -/
noncomputable def getRangeForFrequency (f : ℝ) : MipmapRange :=
  getRangeForIndex ⌊getIndexForFrequency f⌋

end MipmapRange

/-! Wavetable synthesis side: HarmonicProfile::generate, the tabulated
profile, and the WavetableMulti builders.  A harmonic profile is embedded
as its virtual getHarmonic method, a function from harmonic index to a
complex coefficient.  The kiss FFT primitives are embedded as their
defining discrete Fourier sums (forward: unnormalized e^(-i...) sum;
inverse real: unnormalized sum over the Hermitian-extended spectrum). -/

/-- std::polar(rho, theta) = rho * e^(i * theta). -/
noncomputable def polarC (ρ θ : ℝ) : ℂ :=
  (ρ : ℂ) * Complex.exp ((θ : ℂ) * Complex.I)

/-- The scale constant k of HarmonicProfile::generate:
polar(amplitude * 0.5, pi / 2). -/
noncomputable def kGen (amplitude : ℝ) : ℂ := polarC (amplitude * 0.5) (Real.pi / 2)

/-- The bin-filling loop of HarmonicProfile::generate: starting at bin
index 1 with fuel size/2, stop (break) at the first index with
index * (1/size) > cutoff, otherwise write spec[index] = k * getHarmonic(index)
and continue. -/
noncomputable def fillSpec (g : ℕ → ℂ) (size : ℕ) (k : ℂ) (cutoff : ℝ) :
    ℕ → ℕ → (ℕ → ℂ) → (ℕ → ℂ)
  | 0, _, spec => spec
  | fuel + 1, index, spec =>
      if cutoff < (index : ℝ) * (1 / (size : ℝ)) then spec
      else fillSpec g size k cutoff fuel (index + 1)
        (Function.update spec index (k * g index))

/-- The synthesis spectrum built by HarmonicProfile::generate: allocated
zero-filled with size/2 + 1 bins, then filled by the loop (bins 1..size/2,
so fuel size/2, starting index 1). -/
noncomputable def generateSpec (g : ℕ → ℂ) (size : ℕ) (amplitude cutoff : ℝ) :
    ℕ → ℂ :=
  fillSpec g size (kGen amplitude) cutoff (size / 2) 1 (fun _ => 0)

/-- Hermitian extension of a real-signal half spectrum of length N/2 + 1 to
a full length-N spectrum, as consumed by kiss_fftri. -/
noncomputable def hermExt (S : ℕ → ℂ) (N k : ℕ) : ℂ :=
  if k ≤ N / 2 then S k else (starRingEnd ℂ) (S (N - k))

/-- kiss_fftri: unnormalized inverse DFT of the Hermitian-extended half
spectrum; the time-domain output is real, modelled as the real part. -/
noncomputable def ifftReal (S : ℕ → ℂ) (N : ℕ) (n : ℕ) : ℝ :=
  (∑ k ∈ Finset.range N,
    hermExt S N k *
      Complex.exp (2 * (Real.pi : ℂ) * Complex.I * (k : ℂ) * (n : ℂ) / (N : ℂ))).re

/-- HarmonicProfile::generate: sample n of the table written from the
inverse real transform of the synthesis spectrum. -/
noncomputable def generateTable (g : ℕ → ℂ) (size : ℕ) (amplitude cutoff : ℝ)
    (n : ℕ) : ℝ :=
  ifftReal (generateSpec g size amplitude cutoff) size n

/-- TabulatedHarmonicProfile::getHarmonic: indices at or beyond the stored
spectrum return complex zero, others read the table. -/
def tabulatedGetHarmonic (harmonics : List ℂ) (index : ℕ) : ℂ :=
  if harmonics.length ≤ index then 0 else harmonics.getD index 0

/-- kiss_fftr: forward DFT of a real signal,
X[k] = sum over n of x[n] * e^(-2 pi i k n / L), unnormalized. -/
noncomputable def rfftForward (audio : List ℝ) (k : ℕ) : ℂ :=
  ∑ n ∈ Finset.range audio.length,
    ((audio.getD n 0 : ℝ) : ℂ) *
      Complex.exp (-(2 * (Real.pi : ℂ) * Complex.I * (k : ℂ) * (n : ℂ) /
        (audio.length : ℂ)))

/-- The scaled spectrum built inside WavetableMulti::createFromAudioData:
forward transform of the audio, each of the fftSize/2 + 1 coefficients
multiplied by polar(2.0 / fftSize, -pi / 2). -/
noncomputable def scaledSpec (audio : List ℝ) : List ℂ :=
  (List.range (audio.length / 2 + 1)).map
    (fun i => rfftForward audio i * polarC (2.0 / (audio.length : ℝ)) (-(Real.pi / 2)))

/-- WavetableMulti::_tableExtra = 4. -/
def tableExtra : ℕ := 4

/-- WavetableMulti::numTables() = MipmapRange::N. -/
def numTables : ℕ := MipmapRange.N

/-- WavetableMulti: the flat storage (multiSize rows of
tableSize + 2 * tableExtra columns) and the table size. -/
structure WavetableMulti where
  tableSize : ℕ
  multiData : ℕ → ℝ

/-- WavetableMulti::getTablePointer: flat offset of the unpadded start of
row index: index * (tableSize + 2 * tableExtra) + tableExtra. -/
def getTablePointer (ts m : ℕ) : ℕ := m * (ts + 2 * tableExtra) + tableExtra

/-- The per-band cutoff computed in createForHarmonicProfile:
(0.5 * refSampleRate / tableSize) / freq with freq the maxFrequency of the
band range. -/
noncomputable def cutoffFor (m : ℕ) (tableSize : ℕ) (refSampleRate : ℝ) : ℝ :=
  (0.5 * refSampleRate / (tableSize : ℝ)) /
    (MipmapRange.getRangeForIndex m).maxFrequency

/-- One generate call: write vals 0..count-1 into flat positions
base..base+count-1. -/
noncomputable def writeRow (base : ℕ) (vals : ℕ → ℝ) :
    ℕ → (ℕ → ℝ) → (ℕ → ℝ)
  | 0, buf => buf
  | n + 1, buf => Function.update (writeRow base vals n buf) (base + n) (vals n)

/-- The band loop of createForHarmonicProfile: for m = 0..count-1 call
generate into row m with the per-band cutoff. -/
noncomputable def bandLoop (g : ℕ → ℂ) (amplitude : ℝ) (ts : ℕ) (sr : ℝ) :
    ℕ → (ℕ → ℝ) → (ℕ → ℝ)
  | 0, buf => buf
  | m + 1, buf =>
      writeRow (getTablePointer ts m)
        (generateTable g ts amplitude (cutoffFor m ts sr)) ts
        (bandLoop g amplitude ts sr m buf)

/-- The fill-right pointer walk of WavetableMulti::fillExtra: dst starts at
endp and advances; src starts at beg and advances, wrapping back to beg
when it would reach endp. -/
def fillRightLoop (beg endp : ℕ) : ℕ → ℕ → ℕ → (ℕ → ℝ) → (ℕ → ℝ)
  | 0, _, _, buf => buf
  | i + 1, src, dst, buf =>
      fillRightLoop beg endp i (if src + 1 ≠ endp then src + 1 else beg) (dst + 1)
        (Function.update buf dst (buf src))

/-- The fill-left pointer walk of WavetableMulti::fillExtra: dst starts at
beg - 1 and retreats; src starts at endp - 1 and retreats, wrapping back to
endp - 1 when it would pass beg. -/
def fillLeftLoop (beg endm1 : ℕ) : ℕ → ℕ → ℕ → (ℕ → ℝ) → (ℕ → ℝ)
  | 0, _, _, buf => buf
  | i + 1, src, dst, buf =>
      fillLeftLoop beg endm1 i (if src ≠ beg then src - 1 else endm1) (dst - 1)
        (Function.update buf dst (buf src))

/-- WavetableMulti::fillExtra: for each row, copy tableExtra wrapped
samples to the right pad, then tableExtra wrapped samples to the left pad. -/
def fillExtra (ts : ℕ) : ℕ → (ℕ → ℝ) → (ℕ → ℝ)
  | 0, buf => buf
  | m + 1, buf =>
      fillLeftLoop (getTablePointer ts m) (getTablePointer ts m + ts - 1)
        tableExtra (getTablePointer ts m + ts - 1) (getTablePointer ts m - 1)
        (fillRightLoop (getTablePointer ts m) (getTablePointer ts m + ts)
          tableExtra (getTablePointer ts m) (getTablePointer ts m + ts)
          (fillExtra ts m buf))

/-- WavetableMulti::allocateStorage: the resized std::vector is
zero-initialized. -/
def allocateStorage : ℕ → ℝ := fun _ => 0

/-- WavetableMulti::createForHarmonicProfile: allocate, run the band loop,
fill the pads. -/
noncomputable def createForHarmonicProfile (g : ℕ → ℂ) (amplitude : ℝ)
    (tableSize : ℕ) (refSampleRate : ℝ) : WavetableMulti :=
  { tableSize := tableSize
    multiData := fillExtra tableSize numTables
      (bandLoop g amplitude tableSize refSampleRate numTables allocateStorage) }

/-- WavetableMulti::createFromAudioData: forward-transform the audio, scale
the spectrum, wrap it in a TabulatedHarmonicProfile, and delegate to
createForHarmonicProfile. -/
noncomputable def createFromAudioData (audioData : List ℝ) (amplitude : ℝ)
    (tableSize : ℕ) (refSampleRate : ℝ) : WavetableMulti :=
  createForHarmonicProfile (tabulatedGetHarmonic (scaledSpec audioData))
    amplitude tableSize refSampleRate

section MipmapLemmas

open MipmapRange

lemma F1_eq : F1 = 20 := by norm_num [F1]

lemma FN_eq : FN = 12000 := by norm_num [FN]

lemma K_mul_F1 : K * F1 = 1 := by norm_num [K, F1]

lemma FrequencyToIndex_zero : FrequencyToIndex 0 = 0 := by
  have hK : K * 20 = 1 := by norm_num [K, F1]
  simp only [FrequencyToIndex, getExactIndexForFrequency]
  norm_num [F1, FN, hK, Real.log_one, clamp]

lemma FrequencyToIndex_last : FrequencyToIndex 1023 = 23 := by
  simp [FrequencyToIndex]

/-- C4: getIndexForFrequency(F1) is exactly 0 and getIndexForFrequency(FN)
is exactly N - 1 = 23, even though the lookup goes through the interpolated
1024-entry FrequencyToIndex table. -/
theorem C4_boundary_exactness :
    getIndexForFrequency F1 = 0 ∧ getIndexForFrequency FN = 23 := by
  constructor
  · simp only [getIndexForFrequency]
    have hpos : clamp ((F1 - F1) * (1023 / (FN - F1))) 0 1023 = 0 := by
      norm_num [clamp, F1, FN]
    rw [hpos]
    norm_num [FrequencyToIndex_zero]
  · simp only [getIndexForFrequency]
    have hpos : clamp ((FN - F1) * (1023 / (FN - F1))) 0 1023 = 1023 := by
      norm_num [clamp, F1, FN]
    rw [hpos]
    have hfloor : ⌊(1023 : ℝ)⌋ = 1023 := by
      norm_num
    rw [hfloor]
    have htn : (1023 : ℤ).toNat = 1023 := rfl
    norm_num [htn, FrequencyToIndex_last]

lemma FNdivF1 : FN / F1 = 600 := by norm_num [F1, FN]

lemma logB_pos : 0 < LogB := by
  rw [LogB, FNdivF1]
  have h : (0 : ℝ) < Real.log 600 := Real.log_pos (by norm_num)
  linarith

lemma logB_nonneg : 0 ≤ LogB := le_of_lt logB_pos

lemma K_pos : 0 < K := by norm_num [K, F1]

lemma mul23_logB : 23 * LogB = Real.log 600 := by
  rw [LogB, FNdivF1]
  ring

lemma clamp_nonneg {x hi : ℝ} : 0 ≤ clamp x 0 hi := le_max_left 0 _

lemma clamp_le_hi {x hi : ℝ} (h : 0 ≤ hi) : clamp x 0 hi ≤ hi :=
  max_le h (min_le_left _ _)

lemma clamp_eq_self {x lo hi : ℝ} (h1 : lo ≤ x) (h2 : x ≤ hi) :
    clamp x lo hi = x := by
  rw [clamp, min_eq_right h2, max_eq_right h1]

lemma exact_nonneg (f : ℝ) : 0 ≤ getExactIndexForFrequency f := clamp_nonneg

lemma exact_le (f : ℝ) : getExactIndexForFrequency f ≤ 23 :=
  clamp_le_hi (by norm_num)

lemma tbl_nonneg (j : ℕ) : 0 ≤ FrequencyToIndex j := by
  rw [FrequencyToIndex]
  split
  · exact exact_nonneg _
  · norm_num

lemma tbl_le (j : ℕ) : FrequencyToIndex j ≤ 23 := by
  rw [FrequencyToIndex]
  split
  · exact exact_le _
  · norm_num

/-- C6: band boundaries are monotonic non-decreasing, adjacent ranges are
contiguous (maxFrequency of band i equals minFrequency of band i+1 for
i in [0, N-2]), and the final boundary is exactly 22050. -/
theorem C6_boundaries :
    (∀ t : ℕ, t ≤ 23 →
      IndexToStartFrequency t ≤ IndexToStartFrequency (t + 1)) ∧
    (∀ i : ℕ, i ≤ 22 →
      (getRangeForIndex i).maxFrequency = (getRangeForIndex (i + 1 : ℕ)).minFrequency) ∧
    (getRangeForIndex 23).maxFrequency = 22050 := by
  refine ⟨?_, ?_, ?_⟩
  · intro t ht
    by_cases hlt : t < 23
    · have h1 : t < N := by simp only [N]; omega
      have h2 : t + 1 < N := by simp only [N]; omega
      rw [IndexToStartFrequency, IndexToStartFrequency, if_pos h1, if_pos h2]
      have hexp : Real.exp ((t : ℝ) * LogB) ≤ Real.exp (((t + 1 : ℕ) : ℝ) * LogB) := by
        apply Real.exp_le_exp.mpr
        have : (t : ℝ) ≤ ((t + 1 : ℕ) : ℝ) := by push_cast; linarith
        exact mul_le_mul_of_nonneg_right this logB_nonneg
      exact div_le_div_of_nonneg_right hexp K_pos.le
    · have ht23 : t = 23 := by omega
      subst ht23
      have h1 : (23 : ℕ) < N := by norm_num [N]
      have h2 : ¬ ((24 : ℕ) < N) := by norm_num [N]
      rw [IndexToStartFrequency, IndexToStartFrequency]
      rw [if_pos h1, if_neg h2]
      have hlog : ((23 : ℕ) : ℝ) * LogB = Real.log 600 := by
        push_cast
        exact mul23_logB
      rw [hlog, Real.exp_log (by norm_num)]
      norm_num [K, F1]
  · intro i hi
    have hc1 : clamp (i : ℤ) 0 23 = (i : ℤ) := by
      simp only [clamp]
      omega
    have hc2 : clamp ((i : ℕ) + 1 : ℤ) 0 23 = ((i : ℕ) + 1 : ℤ) := by
      simp only [clamp]
      omega
    simp only [getRangeForIndex]
    rw [hc1]
    have hcast : ((i + 1 : ℕ) : ℤ) = (i : ℤ) + 1 := by push_cast; ring
    rw [hcast, hc2]
    have ht1 : ((i : ℤ)).toNat + 1 = ((i : ℤ) + 1).toNat := by omega
    rw [ht1]
  · simp only [getRangeForIndex]
    have hc : clamp (23 : ℤ) 0 23 = 23 := by simp only [clamp]; omega
    rw [hc]
    have ht : (23 : ℤ).toNat + 1 = 24 := rfl
    rw [ht, IndexToStartFrequency]
    norm_num [N]

/-- C7: no error path.  The interpolated and the exact index both land in
[0, N-1] for every nonnegative frequency, the exact index saturates to 0
below F1, and getRangeForIndex clamps any integer into [0, N-1] and returns
the range of the clamped index. -/
theorem C7_no_error_path :
    (∀ f : ℝ, 0 ≤ f →
      0 ≤ getIndexForFrequency f ∧ getIndexForFrequency f ≤ 23) ∧
    (∀ f : ℝ, 0 ≤ f →
      0 ≤ getExactIndexForFrequency f ∧ getExactIndexForFrequency f ≤ 23) ∧
    (∀ f : ℝ, f < F1 → getExactIndexForFrequency f = 0) ∧
    (∀ o : ℤ, getRangeForIndex o = getRangeForIndex (clamp o 0 23) ∧
      0 ≤ clamp o 0 23 ∧ clamp o 0 23 ≤ 23) := by
  refine ⟨?_, ?_, ?_, ?_⟩
  · intro f _
    simp only [getIndexForFrequency]
    set pos : ℝ := clamp ((f - F1) * (1023 / (FN - F1))) 0 1023 with hpos
    set frac : ℝ := pos - ((⌊pos⌋ : ℤ) : ℝ) with hfrac
    have hfr0 : 0 ≤ frac := by
      rw [hfrac]
      have := Int.floor_le pos
      linarith
    have hfr1 : frac ≤ 1 := by
      rw [hfrac]
      have := Int.lt_floor_add_one pos
      push_cast at this ⊢
      linarith
    have hA0 := tbl_nonneg (⌊pos⌋).toNat
    have hA1 := tbl_le (⌊pos⌋).toNat
    have hB0 := tbl_nonneg (min (⌊pos⌋ + 1) 1023).toNat
    have hB1 := tbl_le (min (⌊pos⌋ + 1) 1023).toNat
    constructor
    · have h1 : 0 ≤ (1 - frac) * FrequencyToIndex (⌊pos⌋).toNat :=
        mul_nonneg (by linarith) hA0
      have h2 : 0 ≤ frac * FrequencyToIndex (min (⌊pos⌋ + 1) 1023).toNat :=
        mul_nonneg hfr0 hB0
      linarith
    · have h1 : (1 - frac) * FrequencyToIndex (⌊pos⌋).toNat ≤ (1 - frac) * 23 :=
        mul_le_mul_of_nonneg_left hA1 (by linarith)
      have h2 : frac * FrequencyToIndex (min (⌊pos⌋ + 1) 1023).toNat ≤ frac * 23 :=
        mul_le_mul_of_nonneg_left hB1 hfr0
      nlinarith
  · intro f _
    exact ⟨exact_nonneg f, exact_le f⟩
  · intro f hf
    rw [getExactIndexForFrequency, if_pos hf]
    exact clamp_eq_self le_rfl (by norm_num)
  · intro o
    refine ⟨?_, ?_, ?_⟩
    · simp only [getRangeForIndex]
      have : clamp (clamp o 0 23) 0 23 = clamp o 0 23 := by
        simp only [clamp]
        omega
      rw [this]
    · simp only [clamp]; omega
    · simp only [clamp]; omega

/-- Lower bound 51/8 = 6.375 < log 600 (true value about 6.3969). -/
lemma log600_gt : (51 / 8 : ℝ) < Real.log 600 := by
  rw [Real.lt_log_iff_exp_lt (by norm_num)]
  have hpow : Real.exp (51 / 8) ^ 8 = Real.exp 51 := by
    rw [← Real.exp_nat_mul]
    norm_num
  have h51 : Real.exp 51 = Real.exp 1 ^ 51 := by
    rw [← Real.exp_nat_mul]
    norm_num
  have hub : Real.exp 1 ^ 51 < (2.7182818286 : ℝ) ^ 51 := by
    apply pow_lt_pow_left Real.exp_one_lt_d9 (Real.exp_pos 1).le
    norm_num
  have hnum : (2.7182818286 : ℝ) ^ 51 < 600 ^ 8 := by norm_num
  have : Real.exp (51 / 8) ^ 8 < 600 ^ 8 := by
    rw [hpow, h51]
    linarith
  exact lt_of_pow_lt_pow_left 8 (by norm_num) this

/-- Upper bound log(1622/1023) < 6/13 (true value about 0.46094 < 0.46154). -/
lemma log_ratio_lt : Real.log (1622 / 1023) < 6 / 13 := by
  rw [Real.log_lt_iff_lt_exp (by norm_num)]
  have hpow : Real.exp (6 / 13) ^ 13 = Real.exp 6 := by
    rw [← Real.exp_nat_mul]
    norm_num
  have h6 : Real.exp 6 = Real.exp 1 ^ 6 := by
    rw [← Real.exp_nat_mul]
    norm_num
  have hlb : (2.7182818283 : ℝ) ^ 6 < Real.exp 1 ^ 6 := by
    apply pow_lt_pow_left Real.exp_one_gt_d9 (by norm_num)
    norm_num
  have hnum : (1622 / 1023 : ℝ) ^ 13 < (2.7182818283 : ℝ) ^ 6 := by norm_num
  have : (1622 / 1023 : ℝ) ^ 13 < Real.exp (6 / 13) ^ 13 := by
    rw [hpow, h6]
    linarith
  exact lt_of_pow_lt_pow_left 13 (Real.exp_pos _).le this

/-- exp LogB < 53/40 = 1.325, i.e. the first band boundary ratio is below
1.325 (true value about 1.32063). -/
lemma exp_logB_lt : Real.exp LogB < 53 / 40 := by
  have hlog : Real.log 600 < 23 * Real.log (53 / 40) := by
    have h1 : Real.log 600 < Real.log ((53 / 40 : ℝ) ^ 23) := by
      apply Real.log_lt_log (by norm_num)
      norm_num
    rwa [Real.log_pow, Nat.cast_ofNat] at h1
  have hB : LogB < Real.log (53 / 40) := by
    rw [LogB, FNdivF1]
    linarith
  calc Real.exp LogB < Real.exp (Real.log (53 / 40)) := Real.exp_lt_exp.mpr hB
    _ = 53 / 40 := Real.exp_log (by norm_num)

lemma logB_gt : (51 / 184 : ℝ) < LogB := by
  rw [LogB, FNdivF1]
  have := log600_gt
  linarith

/-- FrequencyToIndex entry 1, exactly: log(1622/1023) / LogB. -/
lemma FrequencyToIndex_one :
    FrequencyToIndex 1 = Real.log (1622 / 1023) / LogB := by
  have hr : K * (F1 + ((1 : ℕ) : ℝ) * (1 / 1023) * (FN - F1)) = 1622 / 1023 := by
    norm_num [K, F1, FN]
  have hnl : ¬ (F1 + ((1 : ℕ) : ℝ) * (1 / 1023) * (FN - F1) < F1) := by
    norm_num [F1, FN]
  rw [FrequencyToIndex, if_pos (by norm_num), getExactIndexForFrequency,
    if_neg hnl, hr]
  apply clamp_eq_self
  · exact div_nonneg (Real.log_nonneg (by norm_num)) logB_nonneg
  · rw [div_le_iff logB_pos, mul23_logB]
    apply Real.log_le_log (by norm_num)
    norm_num

/-- The interpolated index of 26.5 Hz, written in closed form. -/
lemma getIndex_at_26_5 :
    getIndexForFrequency 26.5 =
      (13299 / 23960 : ℝ) * (Real.log (1622 / 1023) / LogB) := by
  have hpos : clamp (((26.5 : ℝ) - F1) * (1023 / (FN - F1))) 0 1023
      = 13299 / 23960 := by
    rw [F1_eq, FN_eq]
    rw [show ((26.5 : ℝ) - 20) * (1023 / (12000 - 20)) = 13299 / 23960 by norm_num]
    exact clamp_eq_self (by norm_num) (by norm_num)
  have hfl : ⌊(13299 / 23960 : ℝ)⌋ = 0 := by
    rw [Int.floor_eq_zero_iff]
    constructor <;> norm_num
  simp only [getIndexForFrequency]
  rw [hpos, hfl]
  have h2 : min ((0 : ℤ) + 1) 1023 = 1 := by norm_num
  rw [h2]
  have ht0 : (0 : ℤ).toNat = 0 := rfl
  have ht1 : (1 : ℤ).toNat = 1 := rfl
  rw [ht0, ht1, FrequencyToIndex_zero, FrequencyToIndex_one]
  push_cast
  ring

/-- The index value interpolated at 26.5 Hz lies in [0, 1). -/
lemma getIndex_at_26_5_lt_one :
    0 ≤ getIndexForFrequency 26.5 ∧ getIndexForFrequency 26.5 < 1 := by
  rw [getIndex_at_26_5]
  have hv0 : 0 ≤ Real.log (1622 / 1023) / LogB :=
    div_nonneg (Real.log_nonneg (by norm_num)) logB_nonneg
  constructor
  · positivity
  · have hv : Real.log (1622 / 1023) / LogB < 1104 / 663 := by
      rw [div_lt_iff logB_pos]
      have h1 : (1104 / 663 : ℝ) * (51 / 184) < (1104 / 663 : ℝ) * LogB := by
        apply mul_lt_mul_of_pos_left logB_gt
        norm_num
      have h2 : Real.log (1622 / 1023) < 6 / 13 := log_ratio_lt
      have h3 : (6 / 13 : ℝ) = (1104 / 663 : ℝ) * (51 / 184) := by norm_num
      linarith
    have hm : (13299 / 23960 : ℝ) * (Real.log (1622 / 1023) / LogB)
        ≤ (13299 / 23960 : ℝ) * (1104 / 663) := by
      apply mul_le_mul_of_nonneg_left hv.le
      norm_num
    have : (13299 / 23960 : ℝ) * (1104 / 663) < 1 := by norm_num
    linarith

/-- C5 counterexample: 26.5 Hz lies in [F1, FN], the interpolated index
floors to band 0, but band 0 ends below 26.5 Hz (at about 26.41 Hz), so the
selected band does not contain the frequency. -/
theorem C5_counterexample :
    (20 : ℝ) ≤ 26.5 ∧ (26.5 : ℝ) ≤ 12000 ∧
    ¬ ((26.5 : ℝ) ≤ (getRangeForIndex ⌊getIndexForFrequency 26.5⌋).maxFrequency) := by
  refine ⟨by norm_num, by norm_num, ?_⟩
  have hfl : ⌊getIndexForFrequency 26.5⌋ = 0 := by
    rw [Int.floor_eq_zero_iff]
    exact ⟨getIndex_at_26_5_lt_one.1, getIndex_at_26_5_lt_one.2⟩
  rw [hfl]
  have hclamp : clamp (0 : ℤ) 0 23 = 0 := by simp only [clamp]; omega
  simp only [getRangeForIndex, hclamp]
  have ht : (0 : ℤ).toNat + 1 = 1 := rfl
  rw [ht]
  have h1 : IndexToStartFrequency 1 = Real.exp LogB / K := by
    rw [IndexToStartFrequency, if_pos (by norm_num [N])]
    norm_num
  rw [h1]
  have hlt : Real.exp LogB / K < 26.5 := by
    rw [div_lt_iff K_pos]
    have := exp_logB_lt
    norm_num [K, F1]
    linarith
  linarith

/-- C5 amended: with the exact (non-tabulated) index in place of the
interpolated one, the selected band does contain the frequency: for every
f in [F1, FN], getRangeForIndex(floor(getExactIndexForFrequency f)) has
minFrequency at most f and maxFrequency at least f. -/
theorem C5_amended_exact_containment :
    ∀ f : ℝ, F1 ≤ f → f ≤ FN →
      (getRangeForIndex ⌊getExactIndexForFrequency f⌋).minFrequency ≤ f ∧
      f ≤ (getRangeForIndex ⌊getExactIndexForFrequency f⌋).maxFrequency := by
  intro f h1 h2
  rw [F1_eq] at h1
  rw [FN_eq] at h2
  have hKf1 : 1 ≤ K * f := by
    rw [K, F1_eq]
    rw [show (1.0 : ℝ) / 20 * f = f / 20 by ring]
    linarith
  have hKf600 : K * f ≤ 600 := by
    rw [K, F1_eq]
    rw [show (1.0 : ℝ) / 20 * f = f / 20 by ring]
    linarith
  have hKfpos : 0 < K * f := by linarith
  have hlog0 : 0 ≤ Real.log (K * f) := Real.log_nonneg hKf1
  have hlog600 : Real.log (K * f) ≤ Real.log 600 :=
    Real.log_le_log hKfpos hKf600
  have hexact : getExactIndexForFrequency f = Real.log (K * f) / LogB := by
    rw [getExactIndexForFrequency, if_neg (by rw [F1_eq]; linarith)]
    apply clamp_eq_self
    · exact div_nonneg hlog0 logB_nonneg
    · rw [div_le_iff logB_pos, ← mul23_logB] at *
      linarith
  set t : ℝ := Real.log (K * f) / LogB with htdef
  have htB : t * LogB = Real.log (K * f) := by
    rw [htdef]
    exact div_mul_cancel₀ _ (ne_of_gt logB_pos)
  have ht0 : 0 ≤ t := div_nonneg hlog0 logB_nonneg
  have ht23 : t ≤ 23 := by
    rw [htdef, div_le_iff logB_pos, mul23_logB]
    linarith
  rw [hexact]
  set k : ℤ := ⌊t⌋ with hkdef
  have hk0 : 0 ≤ k := Int.floor_nonneg.mpr ht0
  have hkt : (k : ℝ) ≤ t := Int.floor_le t
  have hk23 : k ≤ 23 := by
    have : (k : ℝ) ≤ 23 := le_trans hkt ht23
    exact_mod_cast this
  have hclamp : clamp k 0 23 = k := by
    simp only [clamp]
    omega
  simp only [getRangeForIndex, hclamp]
  have hcastk : ((k.toNat : ℕ) : ℝ) = (k : ℝ) := by
    exact_mod_cast Int.toNat_of_nonneg hk0
  constructor
  · have hkN : k.toNat < N := by simp only [N]; omega
    rw [IndexToStartFrequency, if_pos hkN, hcastk]
    rw [div_le_iff K_pos]
    have hm : (k : ℝ) * LogB ≤ Real.log (K * f) := by
      rw [← htB]
      exact mul_le_mul_of_nonneg_right hkt logB_nonneg
    calc Real.exp ((k : ℝ) * LogB) ≤ Real.exp (Real.log (K * f)) :=
          Real.exp_le_exp.mpr hm
      _ = K * f := Real.exp_log hKfpos
      _ = f * K := by ring
  · by_cases hk22 : k ≤ 22
    · have hkN : k.toNat + 1 < N := by simp only [N]; omega
      rw [IndexToStartFrequency, if_pos hkN]
      have hcast1 : ((k.toNat + 1 : ℕ) : ℝ) = (k : ℝ) + 1 := by
        rw [Nat.cast_add, Nat.cast_one, hcastk]
      rw [hcast1]
      have htlt : t < (k : ℝ) + 1 := Int.lt_floor_add_one t
      have hm : Real.log (K * f) < ((k : ℝ) + 1) * LogB := by
        rw [← htB]
        exact mul_lt_mul_of_pos_right htlt logB_pos
      have hexp : K * f < Real.exp (((k : ℝ) + 1) * LogB) := by
        calc K * f = Real.exp (Real.log (K * f)) := (Real.exp_log hKfpos).symm
          _ < Real.exp (((k : ℝ) + 1) * LogB) := Real.exp_lt_exp.mpr hm
      rw [le_div_iff K_pos]
      linarith
    · have hk23e : k = 23 := by omega
      have hkN : ¬ (k.toNat + 1 < N) := by
        simp only [N]
        omega
      rw [IndexToStartFrequency, if_neg hkN]
      norm_num
      linarith

/-- C5 amended witness at f = 20. -/
theorem C5_amended_witness :
    F1 ≤ (20 : ℝ) ∧ (20 : ℝ) ≤ FN ∧
      ((getRangeForIndex ⌊getExactIndexForFrequency 20⌋).minFrequency ≤ 20 ∧
       (20 : ℝ) ≤ (getRangeForIndex ⌊getExactIndexForFrequency 20⌋).maxFrequency) :=
  ⟨by norm_num [F1], by norm_num [FN],
    C5_amended_exact_containment 20 (by norm_num [F1]) (by norm_num [FN])⟩

end MipmapLemmas

section GenerateLemmas

/-- The filling loop never writes below its starting index. -/
lemma fillSpec_lt_start (g : ℕ → ℂ) (size : ℕ) (k : ℂ) (c : ℝ) :
    ∀ (fuel idx : ℕ) (spec : ℕ → ℂ) (j : ℕ), j < idx →
      fillSpec g size k c fuel idx spec j = spec j := by
  intro fuel
  induction fuel with
  | zero => intro idx spec j _; rfl
  | succ f ih =>
    intro idx spec j hj
    rw [fillSpec]
    split
    · rfl
    · rw [ih (idx + 1) _ j (by omega)]
      exact Function.update_noteq (by omega) _ spec

/-- If no index from the start up to i triggers the break, bin i is filled
with k times the harmonic. -/
lemma fillSpec_filled (g : ℕ → ℂ) (size : ℕ) (k : ℂ) (c : ℝ) :
    ∀ (fuel idx : ℕ) (spec : ℕ → ℂ) (i : ℕ), idx ≤ i → i < idx + fuel →
      (∀ j : ℕ, idx ≤ j → j ≤ i → ¬ (c < (j : ℝ) * (1 / (size : ℝ)))) →
      fillSpec g size k c fuel idx spec i = k * g i := by
  intro fuel
  induction fuel with
  | zero => intro idx spec i h1 h2 _; omega
  | succ f ih =>
    intro idx spec i h1 h2 hnb
    rw [fillSpec]
    rw [if_neg (hnb idx le_rfl h1)]
    by_cases hi : i = idx
    · subst hi
      rw [fillSpec_lt_start g size k c f (i + 1) _ i (by omega)]
      simp [Function.update]
    · rw [ih (idx + 1) _ i (by omega) (by omega)]
      intro j hj1 hj2
      exact hnb j (by omega) hj2

/-- Once an index triggers the break condition, its bin (and all later
ones) keeps the value it had before the loop. -/
lemma fillSpec_break (g : ℕ → ℂ) (size : ℕ) (k : ℂ) (c : ℝ) :
    ∀ (fuel idx : ℕ) (spec : ℕ → ℂ) (i : ℕ), idx ≤ i →
      c < (i : ℝ) * (1 / (size : ℝ)) →
      fillSpec g size k c fuel idx spec i = spec i := by
  intro fuel
  induction fuel with
  | zero => intro idx spec i _ _; rfl
  | succ f ih =>
    intro idx spec i h1 hbr
    rw [fillSpec]
    split
    · rfl
    · rename_i hnb
      by_cases hi : i = idx
      · subst hi
        exact absurd hbr hnb
      · rw [ih (idx + 1) _ i (by omega) hbr]
        exact Function.update_noteq (by omega) _ spec

/-- The loop output does not depend on harmonics below the start index. -/
lemma fillSpec_congr (g₁ g₂ : ℕ → ℂ) (size : ℕ) (k : ℂ) (c : ℝ) :
    ∀ (fuel idx : ℕ) (spec : ℕ → ℂ),
      (∀ i : ℕ, idx ≤ i → g₁ i = g₂ i) →
      fillSpec g₁ size k c fuel idx spec = fillSpec g₂ size k c fuel idx spec := by
  intro fuel
  induction fuel with
  | zero => intro idx spec _; rfl
  | succ f ih =>
    intro idx spec hg
    rw [fillSpec, fillSpec]
    split
    · rfl
    · rw [hg idx le_rfl]
      exact ih (idx + 1) _ (fun i hi => hg i (by omega))

/-- C1: for a table of size S, amplitude a and cutoff c, the synthesis
spectrum of HarmonicProfile::generate holds, at every harmonic index i in
[1, S/2], the scaled coefficient kGen(a) * getHarmonic(i) exactly when
i / S is at or below c, and zero (the bin is never written) whenever
i / S exceeds c. -/
theorem C1_cutoff_gate (g : ℕ → ℂ) (size : ℕ) (a c : ℝ) (i : ℕ)
    (h1 : 1 ≤ i) (h2 : i ≤ size / 2) :
    ((i : ℝ) / (size : ℝ) ≤ c →
      generateSpec g size a c i = kGen a * g i) ∧
    (c < (i : ℝ) / (size : ℝ) →
      generateSpec g size a c i = 0) := by
  have hsz : 2 ≤ size := by omega
  have hszR : (0 : ℝ) < (size : ℝ) := by
    have : (0 : ℕ) < size := by omega
    exact_mod_cast this
  constructor
  · intro hle
    apply fillSpec_filled g size (kGen a) c (size / 2) 1 _ i h1 (by omega)
    intro j hj1 hj2
    rw [mul_one_div]
    push_neg
    calc (j : ℝ) / (size : ℝ) ≤ (i : ℝ) / (size : ℝ) := by
          apply div_le_div_of_nonneg_right _ hszR.le
          exact_mod_cast hj2
      _ ≤ c := hle
  · intro hgt
    rw [generateSpec, fillSpec_break g size (kGen a) c (size / 2) 1 _ i h1
      (by rwa [mul_one_div])]

/-- C1 witness: size 8, harmonic 2, cutoff 1/4 keeps bin 2; cutoff 1/8
with harmonic 2 leaves bin 2 zero. -/
theorem C1_witness :
    1 ≤ 2 ∧ 2 ≤ 8 / 2 ∧
    (((2 : ℕ) : ℝ) / ((8 : ℕ) : ℝ) ≤ (1 / 4 : ℝ) →
      generateSpec (fun _ => 1) 8 1 (1 / 4) 2 = kGen 1 * (fun (_ : ℕ) => (1 : ℂ)) 2) ∧
    ((1 / 4 : ℝ) < ((2 : ℕ) : ℝ) / ((8 : ℕ) : ℝ) →
      generateSpec (fun _ => 1) 8 1 (1 / 4) 2 = 0) :=
  ⟨by norm_num, by norm_num,
    (C1_cutoff_gate (fun _ => 1) 8 1 (1 / 4) 2 (by norm_num) (by norm_num)).1,
    (C1_cutoff_gate (fun _ => 1) 8 1 (1 / 4) 2 (by norm_num) (by norm_num)).2⟩

/-- C10: generate never reads the DC coefficient: bin 0 of the synthesis
spectrum is always zero, and two profiles agreeing on every harmonic index
at or above 1 produce identical output tables for the same size, amplitude
and cutoff. -/
theorem C10_dc_independent :
    (∀ (g : ℕ → ℂ) (size : ℕ) (a c : ℝ), generateSpec g size a c 0 = 0) ∧
    (∀ (g₁ g₂ : ℕ → ℂ) (size : ℕ) (a c : ℝ),
      (∀ i : ℕ, 1 ≤ i → g₁ i = g₂ i) →
      ∀ n : ℕ, generateTable g₁ size a c n = generateTable g₂ size a c n) := by
  constructor
  · intro g size a c
    rw [generateSpec, fillSpec_lt_start g size (kGen a) c (size / 2) 1 _ 0
      (by omega)]
  · intro g₁ g₂ size a c hg n
    have hspec : generateSpec g₁ size a c = generateSpec g₂ size a c := by
      rw [generateSpec, generateSpec]
      exact fillSpec_congr g₁ g₂ size (kGen a) c (size / 2) 1 _ hg
    rw [generateTable, generateTable, hspec]

/-- C10 witness: two profiles differing only at DC yield the same table. -/
theorem C10_witness :
    (∀ i : ℕ, 1 ≤ i →
      (fun j : ℕ => if j = 0 then (1 : ℂ) else 0) i = (fun _ : ℕ => (0 : ℂ)) i) ∧
    generateTable (fun j : ℕ => if j = 0 then (1 : ℂ) else 0) 8 1 1 3 =
      generateTable (fun _ : ℕ => (0 : ℂ)) 8 1 1 3 :=
  ⟨fun i hi => by simp [Nat.pos_iff_ne_zero.mp hi],
    C10_dc_independent.2 (fun j : ℕ => if j = 0 then (1 : ℂ) else 0)
      (fun _ : ℕ => (0 : ℂ)) 8 1 1
      (fun i hi => by simp [Nat.pos_iff_ne_zero.mp hi]) 3⟩

/-- C8: querying a tabulated (measured) profile at or beyond the stored
spectrum length returns complex zero. -/
theorem C8_zero_fill (harmonics : List ℂ) (index : ℕ)
    (h : harmonics.length ≤ index) :
    tabulatedGetHarmonic harmonics index = 0 := by
  rw [tabulatedGetHarmonic, if_pos h]

/-- C8 witness: a two-entry spectrum queried at index 5. -/
theorem C8_witness :
    ([Complex.I, 2] : List ℂ).length ≤ 5 ∧
    tabulatedGetHarmonic [Complex.I, 2] 5 = 0 :=
  ⟨by simp, C8_zero_fill [Complex.I, 2] 5 (by simp)⟩

/-- C9: createFromAudioData builds the length L/2 + 1 scaled spectrum
(forward transform times polar(2/L, -pi/2) at every stored coefficient)
and delegates to createForHarmonicProfile with the same amplitude,
tableSize and refSampleRate. -/
theorem C9_from_audio_data (audioData : List ℝ) (amplitude : ℝ)
    (tableSize : ℕ) (refSampleRate : ℝ)
    (heven : Even audioData.length) (hlen : 4 ≤ audioData.length) :
    createFromAudioData audioData amplitude tableSize refSampleRate =
      createForHarmonicProfile (tabulatedGetHarmonic (scaledSpec audioData))
        amplitude tableSize refSampleRate ∧
    (scaledSpec audioData).length = audioData.length / 2 + 1 ∧
    (∀ i : ℕ, i ≤ audioData.length / 2 →
      tabulatedGetHarmonic (scaledSpec audioData) i =
        rfftForward audioData i *
          polarC (2.0 / (audioData.length : ℝ)) (-(Real.pi / 2))) := by
  refine ⟨rfl, by simp [scaledSpec], ?_⟩
  intro i hi
  have hlen2 : (scaledSpec audioData).length = audioData.length / 2 + 1 := by
    simp [scaledSpec]
  have hilt : i < (scaledSpec audioData).length := by omega
  rw [tabulatedGetHarmonic, if_neg (by omega)]
  rw [scaledSpec, List.getD_eq_getElem?_getD, List.getElem?_map,
    List.getElem?_range (by simpa [scaledSpec] using hilt)]
  rfl

/-- C9 witness: a four-sample buffer. -/
theorem C9_witness :
    Even ([1, 0, -1, 0] : List ℝ).length ∧ 4 ≤ ([1, 0, -1, 0] : List ℝ).length ∧
    createFromAudioData [1, 0, -1, 0] 1 16 44100 =
      createForHarmonicProfile (tabulatedGetHarmonic (scaledSpec [1, 0, -1, 0]))
        1 16 44100 :=
  ⟨by decide, by decide,
    (C9_from_audio_data [1, 0, -1, 0] 1 16 44100 (by decide) (by decide)).1⟩

end GenerateLemmas

section BuilderLemmas

/-- writeRow writes vals into [base, base + n) and nothing else. -/
lemma writeRow_apply (base : ℕ) (vals : ℕ → ℝ) :
    ∀ (n : ℕ) (buf : ℕ → ℝ) (p : ℕ),
      writeRow base vals n buf p =
        if base ≤ p ∧ p < base + n then vals (p - base) else buf p := by
  intro n
  induction n with
  | zero =>
    intro buf p
    rw [writeRow, if_neg (by omega)]
  | succ n ih =>
    intro buf p
    rw [writeRow, Function.update_apply]
    by_cases hp : p = base + n
    · rw [if_pos hp, if_pos (by omega)]
      congr 1
      omega
    · rw [if_neg hp, ih]
      by_cases hc : base ≤ p ∧ p < base + n
      · rw [if_pos hc, if_pos (by omega)]
      · rw [if_neg hc, if_neg (by omega)]

/-- Rows advance by at least a full padded stride. -/
lemma ptr_lt_ptr (ts : ℕ) {a b : ℕ} (h : a < b) :
    getTablePointer ts a + ts + 2 * tableExtra ≤ getTablePointer ts b := by
  have h2 : a * (ts + 2 * tableExtra) + (ts + 2 * tableExtra)
      ≤ b * (ts + 2 * tableExtra) := by
    have h3 := Nat.mul_le_mul_right (k := ts + 2 * tableExtra) (Nat.succ_le_of_lt h)
    rwa [Nat.succ_mul] at h3
  simp only [getTablePointer, tableExtra] at *
  linarith

lemma ptr_ge (ts m : ℕ) : tableExtra ≤ getTablePointer ts m :=
  Nat.le_add_left _ _

/-- The band loop leaves positions outside every written row untouched. -/
lemma bandLoop_frame (g : ℕ → ℂ) (a : ℝ) (ts : ℕ) (sr : ℝ) :
    ∀ (count : ℕ) (buf : ℕ → ℝ) (p : ℕ),
      (∀ m : ℕ, m < count →
        ¬ (getTablePointer ts m ≤ p ∧ p < getTablePointer ts m + ts)) →
      bandLoop g a ts sr count buf p = buf p := by
  intro count
  induction count with
  | zero => intro buf p _; rfl
  | succ c ih =>
    intro buf p hp
    rw [bandLoop, writeRow_apply, if_neg (hp c (by omega))]
    exact ih buf p (fun m hm => hp m (by omega))

/-- Inside row m the band loop has written the generate output for the
per-band cutoff of band m. -/
lemma bandLoop_interior (g : ℕ → ℂ) (a : ℝ) (ts : ℕ) (sr : ℝ) :
    ∀ (count : ℕ) (buf : ℕ → ℝ) (m j : ℕ), m < count → j < ts →
      bandLoop g a ts sr count buf (getTablePointer ts m + j) =
        generateTable g ts a (cutoffFor m ts sr) j := by
  intro count
  induction count with
  | zero => intro buf m j hm _; omega
  | succ c ih =>
    intro buf m j hm hj
    rw [bandLoop, writeRow_apply]
    by_cases hmc : m = c
    · subst hmc
      rw [if_pos (by omega)]
      congr 1
      omega
    · have hlt : m < c := by omega
      have hsep := ptr_lt_ptr ts hlt
      rw [if_neg (by simp only [tableExtra] at hsep; omega)]
      exact ih buf m j hlt hj

/-- The right-fill walk writes only into [dst, dst + n). -/
lemma fillRightLoop_frame (beg endp : ℕ) :
    ∀ (n src dst : ℕ) (buf : ℕ → ℝ) (p : ℕ), p < dst ∨ dst + n ≤ p →
      fillRightLoop beg endp n src dst buf p = buf p := by
  intro n
  induction n with
  | zero => intro src dst buf p _; rfl
  | succ n ih =>
    intro src dst buf p hp
    rw [fillRightLoop, ih _ _ _ p (by omega)]
    exact Function.update_noteq (by omega) _ buf

/-- The right-fill walk copies, into slot dst + i, the sample at offset
(src - beg + i) mod (endp - beg) of the unpadded region. -/
lemma fillRightLoop_val (beg endp : ℕ) (hbe : beg < endp) :
    ∀ (n src dst : ℕ) (buf : ℕ → ℝ) (i : ℕ), i < n →
      beg ≤ src → src < endp → endp ≤ dst →
      fillRightLoop beg endp n src dst buf (dst + i) =
        buf (beg + (src - beg + i) % (endp - beg)) := by
  intro n
  induction n with
  | zero => intro src dst buf i hi _ _ _; omega
  | succ n ih =>
    intro src dst buf i hi hs1 hs2 hd
    rw [fillRightLoop]
    cases i with
    | zero =>
      have harg : beg + (src - beg + 0) % (endp - beg) = src := by
        rw [Nat.add_zero, Nat.mod_eq_of_lt (by omega)]
        omega
      rw [harg, fillRightLoop_frame beg endp n _ (dst + 1) _ (dst + 0)
        (Or.inl (by omega))]
      rw [Nat.add_zero, Function.update_same]
    | succ i =>
      have hstep : dst + (i + 1) = (dst + 1) + i := by omega
      rw [hstep]
      by_cases hw : src + 1 ≠ endp
      · rw [if_pos hw,
          ih (src + 1) (dst + 1) _ i (by omega) (by omega) (by omega) (by omega)]
        have hm : (src + 1 - beg + i) % (endp - beg) < endp - beg :=
          Nat.mod_lt _ (by omega)
        rw [Function.update_noteq (by omega) _ buf]
        have harg : src + 1 - beg + i = src - beg + (i + 1) := by omega
        rw [harg]
      · rw [if_neg hw,
          ih beg (dst + 1) _ i (by omega) le_rfl hbe (by omega)]
        have hm : (beg - beg + i) % (endp - beg) < endp - beg :=
          Nat.mod_lt _ (by omega)
        rw [Function.update_noteq (by omega) _ buf]
        have h1 : beg - beg + i = i := by omega
        have h2 : src - beg + (i + 1) = (endp - beg) + i := by omega
        rw [h1, h2, Nat.add_mod_left]

/-- The left-fill walk writes only into (dst - n, dst]. -/
lemma fillLeftLoop_frame (beg endm1 : ℕ) :
    ∀ (n src dst : ℕ) (buf : ℕ → ℝ) (p : ℕ), dst < p ∨ p + n ≤ dst →
      fillLeftLoop beg endm1 n src dst buf p = buf p := by
  intro n
  induction n with
  | zero => intro src dst buf p _; rfl
  | succ n ih =>
    intro src dst buf p hp
    rw [fillLeftLoop, ih _ _ _ p (by omega)]
    exact Function.update_noteq (by omega) _ buf

/-- The left-fill walk copies, into slot dst - i, the sample at signed
offset (src - beg - i) mod (endp - beg) of the unpadded region. -/
lemma fillLeftLoop_val (beg endp : ℕ) (hbe : beg < endp) :
    ∀ (n src dst : ℕ) (buf : ℕ → ℝ) (i : ℕ), i < n → n ≤ dst + 1 →
      beg ≤ src → src < endp → dst < beg →
      fillLeftLoop beg (endp - 1) n src dst buf (dst - i) =
        buf (beg + (((src : ℤ) - (beg : ℤ) - (i : ℤ)) %
          ((endp : ℤ) - (beg : ℤ))).toNat) := by
  intro n
  induction n with
  | zero => intro src dst buf i hi _ _ _ _; omega
  | succ n ih =>
    intro src dst buf i hi hn hs1 hs2 hd
    rw [fillLeftLoop]
    cases i with
    | zero =>
      have harg : beg + (((src : ℤ) - (beg : ℤ) - ((0 : ℕ) : ℤ)) %
          ((endp : ℤ) - (beg : ℤ))).toNat = src := by
        rw [Nat.cast_zero, sub_zero, Int.emod_eq_of_lt (by omega) (by omega)]
        omega
      rw [harg, fillLeftLoop_frame beg (endp - 1) n _ (dst - 1) _ (dst - 0)
        (by omega)]
      rw [Nat.sub_zero, Function.update_same]
    | succ i =>
      have hstep : dst - (i + 1) = (dst - 1) - i := by omega
      rw [hstep]
      by_cases hw : src ≠ beg
      · rw [if_pos hw,
          ih (src - 1) (dst - 1) _ i (by omega) (by omega) (by omega) (by omega)
            (by omega)]
        have hmod0 : 0 ≤ (((src - 1 : ℕ) : ℤ) - (beg : ℤ) - (i : ℤ)) %
            ((endp : ℤ) - (beg : ℤ)) :=
          Int.emod_nonneg _ (by omega)
        rw [Function.update_noteq (by omega) _ buf]
        have harg : ((src - 1 : ℕ) : ℤ) - (beg : ℤ) - (i : ℤ) =
            (src : ℤ) - (beg : ℤ) - ((i + 1 : ℕ) : ℤ) := by
          push_cast
          omega
        rw [harg]
      · rw [if_neg hw,
          ih (endp - 1) (dst - 1) _ i (by omega) (by omega) (by omega) (by omega)
            (by omega)]
        have hmod0 : 0 ≤ (((endp - 1 : ℕ) : ℤ) - (beg : ℤ) - (i : ℤ)) %
            ((endp : ℤ) - (beg : ℤ)) :=
          Int.emod_nonneg _ (by omega)
        rw [Function.update_noteq (by omega) _ buf]
        have hsb : src = beg := by omega
        have harg : ((endp - 1 : ℕ) : ℤ) - (beg : ℤ) - (i : ℤ) =
            ((src : ℤ) - (beg : ℤ) - ((i + 1 : ℕ) : ℤ)) +
              ((endp : ℤ) - (beg : ℤ)) * 1 := by
          push_cast
          omega
        rw [harg, Int.add_mul_emod_self_left]

end BuilderLemmas

section FillExtraLemmas

/-- fillExtra writes only the left and right pads of the processed rows. -/
lemma fillExtra_frame (ts : ℕ) :
    ∀ (count : ℕ) (buf : ℕ → ℝ) (p : ℕ),
      (∀ m : ℕ, m < count →
        ¬ (getTablePointer ts m - tableExtra ≤ p ∧ p < getTablePointer ts m) ∧
        ¬ (getTablePointer ts m + ts ≤ p ∧
           p < getTablePointer ts m + ts + tableExtra)) →
      fillExtra ts count buf p = buf p := by
  intro count
  induction count with
  | zero => intro buf p _; rfl
  | succ c ih =>
    intro buf p hp
    obtain ⟨hL, hR⟩ := hp c (by omega)
    have h4 := ptr_ge ts c
    rw [fillExtra]
    rw [fillLeftLoop_frame (getTablePointer ts c) (getTablePointer ts c + ts - 1)
      tableExtra (getTablePointer ts c + ts - 1) (getTablePointer ts c - 1) _ p
      (by simp only [tableExtra] at h4 hL ⊢; omega)]
    rw [fillRightLoop_frame (getTablePointer ts c) (getTablePointer ts c + ts)
      tableExtra (getTablePointer ts c) (getTablePointer ts c + ts) _ p
      (by simp only [tableExtra] at hR ⊢; omega)]
    exact ih buf p (fun m hm => hp m (by omega))

/-- fillExtra leaves every unpadded row region unchanged. -/
lemma fillExtra_interior (ts : ℕ) (count m j : ℕ) (hm : m < count) (hj : j < ts)
    (buf : ℕ → ℝ) :
    fillExtra ts count buf (getTablePointer ts m + j) =
      buf (getTablePointer ts m + j) := by
  apply fillExtra_frame
  intro q hq
  rcases lt_trichotomy q m with h | h | h
  · have hsep := ptr_lt_ptr ts h
    constructor <;> (simp only [tableExtra] at hsep ⊢; omega)
  · subst h
    have h4 := ptr_ge ts q
    constructor <;> (simp only [tableExtra] at h4 ⊢; omega)
  · have hsep := ptr_lt_ptr ts h
    have h4 := ptr_ge ts q
    constructor <;> (simp only [tableExtra] at hsep h4 ⊢; omega)

/-- Value of the right pad after fillExtra: slot tableSize + k of row m holds
the row sample at offset k mod tableSize. -/
lemma fillExtra_right_pad (ts : ℕ) (hts : 1 ≤ ts) :
    ∀ (count m k : ℕ) (buf : ℕ → ℝ), m < count → k < tableExtra →
      fillExtra ts count buf (getTablePointer ts m + ts + k) =
        buf (getTablePointer ts m + k % ts) := by
  intro count
  induction count with
  | zero => intro m k buf hm _; omega
  | succ c ih =>
    intro m k buf hm hk
    rw [fillExtra]
    by_cases hmc : m = c
    · subst hmc
      have h4 := ptr_ge ts m
      rw [fillLeftLoop_frame (getTablePointer ts m) (getTablePointer ts m + ts - 1)
        tableExtra (getTablePointer ts m + ts - 1) (getTablePointer ts m - 1) _
        (getTablePointer ts m + ts + k)
        (Or.inl (by simp only [tableExtra] at h4; omega))]
      rw [fillRightLoop_val (getTablePointer ts m) (getTablePointer ts m + ts)
        (by omega) tableExtra (getTablePointer ts m) (getTablePointer ts m + ts)
        _ k hk le_rfl (by omega) le_rfl]
      have harg : getTablePointer ts m - getTablePointer ts m + k = k := by omega
      have harg2 : getTablePointer ts m + ts - getTablePointer ts m = ts := by omega
      rw [harg, harg2]
      apply fillExtra_frame
      intro q hq
      have hsep := ptr_lt_ptr ts (show q < m by omega)
      have hmod : k % ts < ts := Nat.mod_lt _ (by omega)
      constructor <;> (simp only [tableExtra] at hsep ⊢; omega)
    · have hlt : m < c := by omega
      have hsep := ptr_lt_ptr ts hlt
      have h4 := ptr_ge ts c
      have hk4 : k < 4 := by simpa [tableExtra] using hk
      rw [fillLeftLoop_frame (getTablePointer ts c) (getTablePointer ts c + ts - 1)
        tableExtra (getTablePointer ts c + ts - 1) (getTablePointer ts c - 1) _
        (getTablePointer ts m + ts + k)
        (Or.inr (by simp only [tableExtra] at hsep h4 ⊢; omega))]
      rw [fillRightLoop_frame (getTablePointer ts c) (getTablePointer ts c + ts)
        tableExtra (getTablePointer ts c) (getTablePointer ts c + ts) _
        (getTablePointer ts m + ts + k)
        (Or.inl (by simp only [tableExtra] at hsep h4; omega))]
      exact ih m k buf hlt hk

/-- Value of the left pad after fillExtra: slot -1-k of row m holds the row
sample at offset (tableSize - 1 - k) mod tableSize (integer arithmetic). -/
lemma fillExtra_left_pad (ts : ℕ) (hts : 1 ≤ ts) :
    ∀ (count m k : ℕ) (buf : ℕ → ℝ), m < count → k < tableExtra →
      fillExtra ts count buf (getTablePointer ts m - 1 - k) =
        buf (getTablePointer ts m +
          (((ts : ℤ) - 1 - (k : ℤ)) % (ts : ℤ)).toNat) := by
  intro count
  induction count with
  | zero => intro m k buf hm _; omega
  | succ c ih =>
    intro m k buf hm hk
    rw [fillExtra]
    by_cases hmc : m = c
    · subst hmc
      have h4 := ptr_ge ts m
      have hk4 : k < 4 := by simpa [tableExtra] using hk
      rw [fillLeftLoop_val (getTablePointer ts m) (getTablePointer ts m + ts)
        (by omega) tableExtra (getTablePointer ts m + ts - 1)
        (getTablePointer ts m - 1) _ k hk
        (by simp only [tableExtra] at h4 ⊢; omega)
        (by omega) (by omega) (by simp only [tableExtra] at h4; omega)]
      have harg : ((getTablePointer ts m + ts - 1 : ℕ) : ℤ) -
          ((getTablePointer ts m : ℕ) : ℤ) - (k : ℤ) = (ts : ℤ) - 1 - (k : ℤ) := by
        omega
      have harg2 : ((getTablePointer ts m + ts : ℕ) : ℤ) -
          ((getTablePointer ts m : ℕ) : ℤ) = (ts : ℤ) := by
        omega
      rw [harg, harg2]
      have hmod : (((ts : ℤ) - 1 - (k : ℤ)) % (ts : ℤ)).toNat < ts := by
        have h0 : 0 ≤ ((ts : ℤ) - 1 - (k : ℤ)) % (ts : ℤ) :=
          Int.emod_nonneg _ (by omega)
        have h1 : ((ts : ℤ) - 1 - (k : ℤ)) % (ts : ℤ) < (ts : ℤ) :=
          Int.emod_lt_of_pos _ (by omega)
        omega
      rw [fillRightLoop_frame (getTablePointer ts m) (getTablePointer ts m + ts)
        tableExtra (getTablePointer ts m) (getTablePointer ts m + ts) _ _
        (Or.inl (by omega))]
      apply fillExtra_frame
      intro q hq
      have hsep := ptr_lt_ptr ts (show q < m by omega)
      constructor <;> (simp only [tableExtra] at hsep ⊢; omega)
    · have hlt : m < c := by omega
      have hsep := ptr_lt_ptr ts hlt
      have h4 := ptr_ge ts c
      have h4m := ptr_ge ts m
      rw [fillLeftLoop_frame (getTablePointer ts c) (getTablePointer ts c + ts - 1)
        tableExtra (getTablePointer ts c + ts - 1) (getTablePointer ts c - 1) _
        (getTablePointer ts m - 1 - k)
        (Or.inr (by simp only [tableExtra] at hsep h4 h4m ⊢; omega))]
      rw [fillRightLoop_frame (getTablePointer ts c) (getTablePointer ts c + ts)
        tableExtra (getTablePointer ts c) (getTablePointer ts c + ts) _
        (getTablePointer ts m - 1 - k)
        (Or.inl (by simp only [tableExtra] at hsep h4 h4m; omega))]
      exact ih m k buf hlt hk

/-- Interior of a built WavetableMulti: row m carries the generate output
for the per-band cutoff. -/
lemma createFHP_interior (g : ℕ → ℂ) (a : ℝ) (ts : ℕ) (sr : ℝ) (m j : ℕ)
    (hm : m < numTables) (hj : j < ts) :
    (createForHarmonicProfile g a ts sr).multiData (getTablePointer ts m + j) =
      generateTable g ts a (cutoffFor m ts sr) j := by
  show fillExtra ts numTables
      (bandLoop g a ts sr numTables allocateStorage) (getTablePointer ts m + j) = _
  rw [fillExtra_interior ts numTables m j hm hj]
  exact bandLoop_interior g a ts sr numTables allocateStorage m j hm hj

/-- Right-pad wrap equation on a built WavetableMulti. -/
lemma createFHP_right_pad (g : ℕ → ℂ) (a : ℝ) (ts : ℕ) (sr : ℝ) (m k : ℕ)
    (hm : m < numTables) (hk : k < tableExtra) (hts : 1 ≤ ts) :
    (createForHarmonicProfile g a ts sr).multiData (getTablePointer ts m + ts + k) =
      (createForHarmonicProfile g a ts sr).multiData
        (getTablePointer ts m + k % ts) := by
  show fillExtra ts numTables (bandLoop g a ts sr numTables allocateStorage) _ =
    fillExtra ts numTables (bandLoop g a ts sr numTables allocateStorage) _
  rw [fillExtra_right_pad ts hts numTables m k _ hm hk,
    fillExtra_interior ts numTables m (k % ts) hm (Nat.mod_lt _ (by omega))]

/-- Left-pad wrap equation on a built WavetableMulti. -/
lemma createFHP_left_pad (g : ℕ → ℂ) (a : ℝ) (ts : ℕ) (sr : ℝ) (m k : ℕ)
    (hm : m < numTables) (hk : k < tableExtra) (hts : 1 ≤ ts) :
    (createForHarmonicProfile g a ts sr).multiData (getTablePointer ts m - 1 - k) =
      (createForHarmonicProfile g a ts sr).multiData
        (getTablePointer ts m + (((ts : ℤ) - 1 - (k : ℤ)) % (ts : ℤ)).toNat) := by
  show fillExtra ts numTables (bandLoop g a ts sr numTables allocateStorage) _ =
    fillExtra ts numTables (bandLoop g a ts sr numTables allocateStorage) _
  have hmod : (((ts : ℤ) - 1 - (k : ℤ)) % (ts : ℤ)).toNat < ts := by
    have h0 : 0 ≤ ((ts : ℤ) - 1 - (k : ℤ)) % (ts : ℤ) :=
      Int.emod_nonneg _ (by omega)
    have h1 : ((ts : ℤ) - 1 - (k : ℤ)) % (ts : ℤ) < (ts : ℤ) :=
      Int.emod_lt_of_pos _ (by omega)
    omega
  rw [fillExtra_left_pad ts hts numTables m k _ hm hk,
    fillExtra_interior ts numTables m _ hm hmod]

/-- C2: every band row of createForHarmonicProfile holds the generate
output for cutoff (0.5 * refSampleRate / tableSize) / freq, with freq the
maxFrequency of getRangeForIndex(m). -/
theorem C2_per_band_cutoff (g : ℕ → ℂ) (a : ℝ) (ts : ℕ) (sr : ℝ) (m j : ℕ)
    (hm : m < numTables) (hj : j < ts) :
    (createForHarmonicProfile g a ts sr).multiData (getTablePointer ts m + j) =
      generateTable g ts a
        ((0.5 * sr / (ts : ℝ)) / (MipmapRange.getRangeForIndex m).maxFrequency) j :=
  createFHP_interior g a ts sr m j hm hj

/-- C2 witness: band 0, table size 1. -/
theorem C2_witness :
    0 < numTables ∧ 0 < 1 ∧
    (createForHarmonicProfile (fun _ => 0) 0 1 44100).multiData
        (getTablePointer 1 0 + 0) =
      generateTable (fun _ => 0) 1 0
        ((0.5 * 44100 / ((1 : ℕ) : ℝ)) /
          (MipmapRange.getRangeForIndex 0).maxFrequency) 0 :=
  ⟨by norm_num [numTables, MipmapRange.N], by norm_num,
    C2_per_band_cutoff (fun _ => 0) 0 1 44100 0 0
      (by norm_num [numTables, MipmapRange.N]) (by norm_num)⟩

/-- C3: wrap-padding invariant for both builders: for every band row m and
every k < tableExtra, the right guard slot tableSize + k equals the row
sample k mod tableSize, and the left guard slot -1-k equals the row sample
(tableSize - 1 - k) mod tableSize. -/
theorem C3_wrap_invariant (g : ℕ → ℂ) (audio : List ℝ) (a : ℝ) (ts : ℕ)
    (sr : ℝ) (m k : ℕ) (hm : m < numTables) (hk : k < tableExtra)
    (hts : 1 ≤ ts) :
    ((createForHarmonicProfile g a ts sr).multiData
        (getTablePointer ts m + ts + k) =
      (createForHarmonicProfile g a ts sr).multiData
        (getTablePointer ts m + k % ts) ∧
     (createForHarmonicProfile g a ts sr).multiData
        (getTablePointer ts m - 1 - k) =
      (createForHarmonicProfile g a ts sr).multiData
        (getTablePointer ts m + (((ts : ℤ) - 1 - (k : ℤ)) % (ts : ℤ)).toNat)) ∧
    ((createFromAudioData audio a ts sr).multiData
        (getTablePointer ts m + ts + k) =
      (createFromAudioData audio a ts sr).multiData
        (getTablePointer ts m + k % ts) ∧
     (createFromAudioData audio a ts sr).multiData
        (getTablePointer ts m - 1 - k) =
      (createFromAudioData audio a ts sr).multiData
        (getTablePointer ts m + (((ts : ℤ) - 1 - (k : ℤ)) % (ts : ℤ)).toNat)) :=
  ⟨⟨createFHP_right_pad g a ts sr m k hm hk hts,
    createFHP_left_pad g a ts sr m k hm hk hts⟩,
   ⟨createFHP_right_pad (tabulatedGetHarmonic (scaledSpec audio)) a ts sr m k
      hm hk hts,
    createFHP_left_pad (tabulatedGetHarmonic (scaledSpec audio)) a ts sr m k
      hm hk hts⟩⟩

/-- C3 witness: band 0, k = 0, table size 1. -/
theorem C3_witness :
    0 < numTables ∧ 0 < tableExtra ∧ 1 ≤ 1 ∧
    (createForHarmonicProfile (fun _ => 0) 0 1 44100).multiData
        (getTablePointer 1 0 + 1 + 0) =
      (createForHarmonicProfile (fun _ => 0) 0 1 44100).multiData
        (getTablePointer 1 0 + 0 % 1) :=
  ⟨by norm_num [numTables, MipmapRange.N], by norm_num [tableExtra], le_rfl,
    ((C3_wrap_invariant (fun _ => 0) [] 0 1 44100 0 0
      (by norm_num [numTables, MipmapRange.N]) (by norm_num [tableExtra])
      le_rfl).1).1⟩

end FillExtraLemmas

section MoreWitnesses

open MipmapRange

/-- C6 witness: monotone step at 0 and contiguity at 0. -/
theorem C6_witness :
    (0 : ℕ) ≤ 23 ∧ IndexToStartFrequency 0 ≤ IndexToStartFrequency (0 + 1) ∧
    (0 : ℕ) ≤ 22 ∧
    (getRangeForIndex (0 : ℕ)).maxFrequency =
      (getRangeForIndex ((0 : ℕ) + 1 : ℕ)).minFrequency :=
  ⟨by norm_num, C6_boundaries.1 0 (by norm_num), by norm_num,
    C6_boundaries.2.1 0 (by norm_num)⟩

/-- C7 witness: interpolated index bounds at 100 Hz, saturation at 5 Hz,
clamping of out-of-range band index 30. -/
theorem C7_witness :
    (0 : ℝ) ≤ 100 ∧
    (0 ≤ getIndexForFrequency 100 ∧ getIndexForFrequency 100 ≤ 23) ∧
    (5 : ℝ) < F1 ∧ getExactIndexForFrequency 5 = 0 ∧
    getRangeForIndex 30 = getRangeForIndex (clamp 30 0 23) :=
  ⟨by norm_num, C7_no_error_path.1 100 (by norm_num), by norm_num [F1],
    C7_no_error_path.2.2.1 5 (by norm_num [F1]),
    (C7_no_error_path.2.2.2 30).1⟩

end MoreWitnesses
